import Mathlib

/-!
Verification of the concurrency-control core of the glossary upload service:
the three queue primitives (`SerialQueue`, `ParalelQueue`, `OrderedQueue`)
and the single-pass stream multiplexer (`StreamPiper`).

The embedding is shallow:
* JS `Map`s keyed by sequence number become association lists `List (Nat × _)`.
* A promise that can be resolved at most once becomes an `Option` value
  (`none` = pending, `some b` = settled with `b`); resolving an already
  settled promise is a no-op, matching JS semantics.
* `randomUUID` ticket identity is modelled by a monotonic counter `nextId`:
  the only property the code relies on is freshness/uniqueness of ids.
* The cooperatively-interleaved async execution of `ParalelQueue` is modelled
  by a small-step relation `PStep` over a state that records the dispatcher's
  control point and the control point of every launched callback; the
  scheduler is fully nondeterministic, covering every completion order.
* `StreamPiper`'s event handlers (`data`, `end`, `error`) become pure state
  transformers; the SHA-256 accumulator is modelled by the exact byte
  sequence fed to it, so "digest of bytes B" is represented by B itself.
-/

namespace GlossaryCore

/-! ## OrderedQueue (AdmissionQueue), from src/unnamed/part_002 lines 130-261 -/

/-- One-shot promise resolution: every pending entry for key `id` is settled
with `b`; already settled entries are untouched (JS `resolve` is a no-op on a
settled promise). -/
def resolvePromise (ps : List (Nat × Option Bool)) (id : Nat) (b : Bool) :
    List (Nat × Option Bool) :=
  ps.map fun p => if p.1 = id ∧ p.2 = none then (p.1, some b) else p

/-- State of `OrderedQueue`.  `queue` is the FIFO list of ticket ids,
`waiting` the key set of the JS `waiting` map, and `promises` the resolution
state of every promise ever created (promises outlive their map entry: a
caller that grabbed the promise before a `dequeue` still sees its value). -/
structure OrderedQueue where
  limit : Nat
  queue : List Nat
  waiting : List Nat
  promises : List (Nat × Option Bool)
  nextId : Nat
deriving Repr, DecidableEq

/-- Constructor: `if (limit < 1) throw`. -/
def OrderedQueue.construct (limit : Int) : Except String OrderedQueue :=
  if limit < 1 then Except.error "Limit cannot be less than 1."
  else Except.ok { limit := limit.toNat, queue := [], waiting := [], promises := [], nextId := 0 }

/-- `inqueue(id)`: `this.queue.includes(id)`. -/
def OrderedQueue.inqueue (q : OrderedQueue) (id : Nat) : Bool :=
  q.queue.contains id

/-- `active(id)`: `index > -1 && index < this.limit` where
`index = this.queue.indexOf(id)` (`List.indexOf` returns `length` when the
element is absent, which is exactly `index > -1` being false). -/
def OrderedQueue.active (q : OrderedQueue) (id : Nat) : Bool :=
  let index := q.queue.indexOf id
  decide (index < q.queue.length) && decide (index < q.limit)

/-- `processQueue()`: resolve (first time only) the promise of every user in
the active zone `queue.slice(0, limit)`, skipping ids without a waiter. -/
def OrderedQueue.processQueue (q : OrderedQueue) : OrderedQueue :=
  { q with promises :=
      ((q.queue.take q.limit).foldl
        (fun ps id => if id ∈ q.waiting then resolvePromise ps id true else ps)
        q.promises) }

/-- `enqueue()`: fresh id appended to the queue, a pending promise is
registered, then `processQueue()` runs.  Returns the new id. -/
def OrderedQueue.enqueue (q : OrderedQueue) : Nat × OrderedQueue :=
  let id := q.nextId
  let q1 : OrderedQueue :=
    { q with queue := q.queue ++ [id],
             waiting := q.waiting ++ [id],
             promises := q.promises ++ [(id, none)],
             nextId := id + 1 }
  (id, q1.processQueue)

/-- `dequeue(id)`: remove the ticket from any position, settle its promise
with `false` (no-op if already settled), drop the waiter entry, then
`processQueue()`.  Returns whether the ticket was found. -/
def OrderedQueue.dequeue (q : OrderedQueue) (id : Nat) : Bool × OrderedQueue :=
  if id ∈ q.queue then
    let q1 : OrderedQueue :=
      { q with queue := q.queue.erase id,
               promises :=
                 if id ∈ q.waiting then resolvePromise q.promises id false
                 else q.promises,
               waiting := q.waiting.erase id }
    (true, q1.processQueue)
  else (false, q)

/-- `wait(id)`: if the waiter map has no entry the call returns `false`
immediately; otherwise the caller gets the promise, whose current state is
`some b` (settled) or `none` (the caller suspends). -/
def OrderedQueue.wait (q : OrderedQueue) (id : Nat) : Option Bool :=
  if id ∈ q.waiting then (q.promises.lookup id).join else some false

/-- `getPosition(id)`: 0-based index, `-1` if absent. -/
def OrderedQueue.getPosition (q : OrderedQueue) (id : Nat) : Int :=
  if q.queue.contains id then (q.queue.indexOf id : Int) else -1

/-- `size()`. -/
def OrderedQueue.size (q : OrderedQueue) : Nat := q.queue.length

/-- `max()`. -/
def OrderedQueue.max (q : OrderedQueue) : Nat := q.limit

/-- Position reported by `QueueTrackerController.getQueueState`
(src/src/tests/piper_test.ts line 461): for raw index `idx` and window `K`,
waiting entries (`idx ≥ K`) get the 1-based position `idx - K + 1`, active
entries get the negative position `idx - K`. -/
def queueStatePosition (K idx : Nat) : Int :=
  if K ≤ idx then (idx : Int) - (K : Int) + 1 else (idx : Int) - (K : Int)

/-- States reachable through the public mutating operations. -/
inductive OrderedQueue.Reachable : OrderedQueue → Prop where
  | init (limit : Int) (q : OrderedQueue) (h : OrderedQueue.construct limit = Except.ok q) :
      OrderedQueue.Reachable q
  | enq (q : OrderedQueue) (h : OrderedQueue.Reachable q) :
      OrderedQueue.Reachable (q.enqueue).2
  | deq (q : OrderedQueue) (id : Nat) (h : OrderedQueue.Reachable q) :
      OrderedQueue.Reachable (q.dequeue id).2

/-- Internal well-formedness invariant of every reachable `OrderedQueue`. -/
def OQInv (q : OrderedQueue) : Prop :=
  q.waiting = q.queue
  ∧ q.queue.Pairwise (· < ·)
  ∧ (∀ x ∈ q.queue, x < q.nextId)
  ∧ q.promises.map Prod.fst = List.range q.nextId
  ∧ (∀ x ∈ q.queue.take q.limit, q.promises.lookup x = some (some true))
  ∧ (∀ x ∈ q.queue, x ∉ q.queue.take q.limit → q.promises.lookup x = some none)

/-- Concrete scenario states for window `K = 2` (claim C9 and others):
`oq2` is the freshly constructed queue. -/
def oq2 : OrderedQueue := { limit := 2, queue := [], waiting := [], promises := [], nextId := 0 }

/-- After enqueueing A, B, C (ids 0, 1, 2). -/
def oq2abc : OrderedQueue := oq2.enqueue.2.enqueue.2.enqueue.2

/-- After additionally dequeuing A (id 0). -/
def oq2bc : OrderedQueue := (oq2abc.dequeue 0).2

/-- Window `K = 1` queue (claim C6 counterexample). -/
def oq1 : OrderedQueue := { limit := 1, queue := [], waiting := [], promises := [], nextId := 0 }

/-- One ticket (id 0) enqueued: it is active and its wait resolved `true`. -/
def oq1a : OrderedQueue := oq1.enqueue.2

/-- The active, already-admitted ticket 0 dequeued again. -/
def oq1d : OrderedQueue := (oq1a.dequeue 0).2

/-! ## SerialQueue (SerialWorkQueue), from src/unnamed/part_002 lines 4-51 -/

/-- State of `SerialQueue`.  The handler callback is supplied to the worker
loop directly; a JS handler result is `none` (undefined) or `some b`
(a defined truthy/falsy value). -/
structure SerialQueue (α : Type) where
  items : List α
  limit : Nat
  working : Bool
  openQ : Bool
deriving Repr, DecidableEq

/-- Constructor: `if (limit > 0) { this.limit = limit }`, default 1. -/
def mkSerialQueue (α : Type) (limit : Int) : SerialQueue α :=
  { items := [], limit := if 0 < limit then limit.toNat else 1,
    working := false, openQ := true }

/-- `close()`: `open = false; working = false; clear()`. -/
def SerialQueue.close (q : SerialQueue α) : SerialQueue α :=
  { q with openQ := false, working := false, items := [] }

/-- `push(item)`: after the capacity wait, a closed queue returns `false`
without appending; otherwise the item is appended. -/
def SerialQueue.push (q : SerialQueue α) (item : α) : Bool × SerialQueue α :=
  if q.openQ then (true, { q with items := q.items ++ [item] }) else (false, q)

/-- The `work()` loop body on a backlog: run the handler on the head; a
defined falsy result (`some false`) triggers `close()` and stops; otherwise
shift and continue.  Returns `(executed items in order, closed?)`. -/
def serialWorkList (f : α → Option Bool) : List α → List α × Bool
  | [] => ([], false)
  | a :: rest =>
    if f a = some false then ([a], true)
    else
      let r := serialWorkList f rest
      (a :: r.1, r.2)

/-- `work()` on a queue state: final state (closed via `close()` on a stop
result, otherwise drained) and the executed items in execution order. -/
def SerialQueue.work (f : α → Option Bool) (q : SerialQueue α) :
    SerialQueue α × List α :=
  let r := serialWorkList f q.items
  (if r.2 then SerialQueue.close q else { q with items := [], working := false }, r.1)

/-! ## StreamPiper (StreamTee), from src/unnamed/part_000

Bytes are `Nat`s, a `Buffer` chunk is a `List Nat`.  The `crypto` hash object
is modelled by the byte sequence fed to it via `hash.update`; the value the
digest is taken over is that sequence, so `dataHash`/`hashResolved` hold the
full byte list in place of its hex SHA-256 string. -/

/-- `StreamPiper.HEADER_SIZE`. -/
def HEADER_SIZE : Nat := 1024

/-- Session state of one `StreamPiper`.  `headerResolved`/`hashResolved` are
the one-shot promises returned by `getHeader()`/`getHash()`; `outputChunks`,
`outputEnded`, `outputErrored` record what was written to / signalled on the
`PassThrough` output stream. -/
structure StreamPiper where
  header : List Nat
  hashBytes : List Nat
  dataHash : Option (List Nat)
  headerResolved : Option (List Nat)
  hashResolved : Option (List Nat)
  outputChunks : List (List Nat)
  outputEnded : Bool
  outputErrored : Bool
  isHeaderFinalized : Bool
deriving Repr, DecidableEq

/-- Freshly constructed piper (before any source event). -/
def initPiper : StreamPiper :=
  { header := [], hashBytes := [], dataHash := none, headerResolved := none,
    hashResolved := none, outputChunks := [], outputEnded := false,
    outputErrored := false, isHeaderFinalized := false }

/-- One-shot promise settle: a no-op when already settled. -/
def resolveOnce (p : Option (List Nat)) (v : List Nat) : Option (List Nat) :=
  match p with
  | some w => some w
  | none => some v

/-- The `data` event handler of `_initialize` (lines 53-72): update the hash,
capture missing header bytes, resolve the header promise once the header is
full, and forward the chunk to the output stream. -/
def StreamPiper.onData (s : StreamPiper) (chunk : List Nat) : StreamPiper :=
  let s1 := { s with hashBytes := s.hashBytes ++ chunk }
  let s2 :=
    if s1.isHeaderFinalized then s1
    else
      let bytesNeeded := HEADER_SIZE - s1.header.length
      let bytesToTake := Min.min bytesNeeded chunk.length
      let header2 := s1.header ++ chunk.take bytesToTake
      let fin := decide (HEADER_SIZE ≤ header2.length)
      { s1 with header := header2,
                isHeaderFinalized := fin,
                headerResolved :=
                  if fin then resolveOnce s1.headerResolved header2
                  else s1.headerResolved }
  { s2 with outputChunks := s2.outputChunks ++ [chunk] }

/-- The `end` event handler (lines 74-79): finalize a short header, resolve
the hash promise with the digest over everything fed so far, end the output
stream. -/
def StreamPiper.onEnd (s : StreamPiper) : StreamPiper :=
  let s1 := { s with isHeaderFinalized := true }
  let s2 :=
    if s1.header.length < HEADER_SIZE then
      { s1 with headerResolved := resolveOnce s1.headerResolved s1.header }
    else s1
  { s2 with dataHash := some s2.hashBytes,
            hashResolved := resolveOnce s2.hashResolved s2.hashBytes,
            outputEnded := true }

/-- The `error` event handler (lines 81-83): the error is forwarded to the
output stream and nothing else happens. -/
def StreamPiper.onError (s : StreamPiper) : StreamPiper :=
  { s with outputErrored := true }

/-- State after the source produced `chunks` (no terminal event yet). -/
def runChunks (chunks : List (List Nat)) : StreamPiper :=
  chunks.foldl StreamPiper.onData initPiper

/-- State after the source produced `chunks` and then ended. -/
def runToEnd (chunks : List (List Nat)) : StreamPiper :=
  (runChunks chunks).onEnd

/-- State after the source produced `chunks` and then errored. -/
def runToError (chunks : List (List Nat)) : StreamPiper :=
  (runChunks chunks).onError

/-- Mid-stream characterization of a piper state that has processed exactly
the bytes `B` (no terminal event): used as the fold invariant. -/
def PiperMid (s : StreamPiper) (chunks : List (List Nat)) : Prop :=
  s.hashBytes = chunks.flatten
  ∧ s.outputChunks = chunks
  ∧ s.header = chunks.flatten.take HEADER_SIZE
  ∧ s.isHeaderFinalized = decide (HEADER_SIZE ≤ chunks.flatten.length)
  ∧ s.headerResolved =
      (if HEADER_SIZE ≤ chunks.flatten.length then some (chunks.flatten.take HEADER_SIZE) else none)
  ∧ s.hashResolved = none
  ∧ s.dataHash = none
  ∧ s.outputEnded = false
  ∧ s.outputErrored = false

/-! ## ParalelQueue (OrderedParallelQueue), from src/unnamed/part_002 lines 53-124

The queue runs handlers concurrently; we model the interleaving with a
small-step relation.  A state carries the control point of the dispatcher
(`work()` loop) and of every launched `callback` instance.  `close()` is not
modelled (no claim exercises it), so `openQ` stays `true`; the `open` checks
of the source are kept in the step rules.  Handler outcomes are a parameter
`res : Nat → Except Unit β`: `Except.ok b` means the handler for sequence
number `o` fulfils with `b`, `Except.error ()` means it throws/rejects. -/

/-- Control point of one `callback(order, args)` instance.
`compute` = inside `await func_callback`; `turnWait r` = handler finished
with result `r` (or skipped with `r = none` when the queue was closed),
spinning on `!clearing && outp_order != order`; `done` = emitted and
bookkeeping done; `doneSuppressed` = returned through the `clearing` path
(line 107) without decrementing `curr_working`; `aborted` = the handler threw
and the `await` re-raised, abandoning the rest of `callback`. -/
inductive TPhase (β : Type) where
  | compute : TPhase β
  | turnWait : Option β → TPhase β
  | done : TPhase β
  | doneSuppressed : TPhase β
  | aborted : TPhase β
deriving Repr, DecidableEq

/-- Control point of the dispatcher (`work()` loop): `idle` = not running,
`atLoop` = about to test the outer loop condition (line 92), `atWait` = in
the concurrency wait after launching a callback (line 98). -/
inductive DPhase where
  | idle : DPhase
  | atLoop : DPhase
  | atWait : DPhase
deriving Repr, DecidableEq

/-- Full state of a `ParalelQueue`.  `items` holds the keys of the JS `items`
map (the stored value for key `o` is determined by `o` itself), `output` logs
every `outp_callback` invocation in order (entry `none` = called with
`undefined`). -/
structure ParalelQueue (β : Type) where
  items : List Nat
  limit : Nat
  curr_working : Nat
  push_order : Nat
  work_order : Nat
  outp_order : Nat
  working : Bool
  clearing : Bool
  openQ : Bool
  dpc : DPhase
  tasks : List (Nat × TPhase β)
  output : List (Option β)
deriving Repr, DecidableEq

/-- Constructor: `if (limit > 0) { this.limit = limit }`, default 1. -/
def mkParalelQueue (β : Type) (limit : Int) : ParalelQueue β :=
  { items := [], limit := if 0 < limit then limit.toNat else 1,
    curr_working := 0, push_order := 0, work_order := 0, outp_order := 0,
    working := false, clearing := false, openQ := true, dpc := DPhase.idle,
    tasks := [], output := [] }

/-- Replace the phase of the task with sequence number `o`. -/
def updTask (tasks : List (Nat × TPhase β)) (o : Nat) (ph : TPhase β) :
    List (Nat × TPhase β) :=
  tasks.map fun t => if t.1 = o then (o, ph) else t

/-- One interleaving step of a `ParalelQueue`.  `res` gives every handler's
outcome; `allowClear` enables the external `clear()` call. -/
inductive PStep (res : Nat → Except Unit β) (allowClear : Bool) :
    ParalelQueue β → ParalelQueue β → Prop where
  /-- `push(...)` (lines 75-81) completing: the capacity wait of
  `waitForQueue(false)` has passed (`items.size < limit`), the queue is open,
  the item is stored under `push_order`, and `work()` is started when not
  already running (setting `working`, resetting `clearing`, entering the
  loop). -/
  | push (s : ParalelQueue β) (hopen : s.openQ = true)
      (hcap : s.items.length < s.limit) :
      PStep res allowClear s
        { s with items := s.items ++ [s.push_order],
                 push_order := s.push_order + 1,
                 working := true,
                 clearing := s.working && s.clearing,
                 dpc := if s.working then s.dpc else DPhase.atLoop }
  /-- The outer loop condition (line 92) fails: `work()` returns. -/
  | dexit (s : ParalelQueue β) (hpc : s.dpc = DPhase.atLoop)
      (hcond : s.working = false ∨ s.items = [] ∨ ¬ s.work_order < s.push_order) :
      PStep res allowClear s { s with working := false, dpc := DPhase.idle }
  /-- Line 93: the current `work_order` is not in `items` (cleared) — skip. -/
  | dskip (s : ParalelQueue β) (hpc : s.dpc = DPhase.atLoop)
      (hw : s.working = true) (hne : s.items ≠ [])
      (hlt : s.work_order < s.push_order) (hmem : s.work_order ∉ s.items) :
      PStep res allowClear s { s with work_order := s.work_order + 1 }
  /-- Lines 94-97: launch `callback` for the current `work_order`, then fall
  into the concurrency wait. -/
  | dlaunch (s : ParalelQueue β) (hpc : s.dpc = DPhase.atLoop)
      (hw : s.working = true) (hne : s.items ≠ [])
      (hlt : s.work_order < s.push_order) (hmem : s.work_order ∈ s.items) :
      PStep res allowClear s
        { s with work_order := s.work_order + 1,
                 curr_working := s.curr_working + 1,
                 tasks := s.tasks ++
                   [(s.work_order,
                     if s.openQ then TPhase.compute else TPhase.turnWait none)],
                 dpc := DPhase.atWait }
  /-- The concurrency wait (line 98) passes: `!(open && curr_working >= limit)`. -/
  | dwaitdone (s : ParalelQueue β) (hpc : s.dpc = DPhase.atWait)
      (hcond : s.openQ = false ∨ s.curr_working < s.limit) :
      PStep res allowClear s { s with dpc := DPhase.atLoop }
  /-- `await func_callback(...)` fulfils with `b`. -/
  | tcompute (s : ParalelQueue β) (o : Nat) (b : β)
      (hmem : (o, TPhase.compute) ∈ s.tasks) (hres : res o = Except.ok b) :
      PStep res allowClear s { s with tasks := updTask s.tasks o (TPhase.turnWait (some b)) }
  /-- `await func_callback(...)` rejects: the exception propagates out of
  `callback`, whose remaining statements (turn wait, emission, bookkeeping)
  never run. -/
  | tcomputeErr (s : ParalelQueue β) (o : Nat)
      (hmem : (o, TPhase.compute) ∈ s.tasks) (hres : res o = Except.error ()) :
      PStep res allowClear s { s with tasks := updTask s.tasks o TPhase.aborted }
  /-- Line 107: the turn wait exits because `clearing` is set; the result is
  suppressed, `outp_order` jumps to `push_order`, and the callback returns
  without touching `curr_working`. -/
  | tturnClear (s : ParalelQueue β) (o : Nat) (r : Option β)
      (hmem : (o, TPhase.turnWait r) ∈ s.tasks) (hcl : s.clearing = true) :
      PStep res allowClear s
        { s with outp_order := s.push_order,
                 tasks := updTask s.tasks o TPhase.doneSuppressed }
  /-- Lines 108-111: the turn wait exits because `outp_order == order`; the
  result is emitted when the queue is open and the item still stored, then
  the entry is deleted, `curr_working` decremented and `outp_order`
  incremented. -/
  | tturnEmit (s : ParalelQueue β) (o : Nat) (r : Option β)
      (hmem : (o, TPhase.turnWait r) ∈ s.tasks) (hcl : s.clearing = false)
      (hord : s.outp_order = o) :
      PStep res allowClear s
        { s with output := if s.openQ = true ∧ o ∈ s.items then s.output ++ [r] else s.output,
                 items := s.items.erase o,
                 curr_working := s.curr_working - 1,
                 outp_order := s.outp_order + 1,
                 tasks := updTask s.tasks o TPhase.done }
  /-- `clear()` (lines 114-117): drop all items, raise `clearing`. -/
  | clearStep (s : ParalelQueue β) (hc : allowClear = true) :
      PStep res allowClear s { s with items := [], clearing := true }

/-- Reflexive-transitive closure of `PStep` from a given state. -/
inductive PReach (res : Nat → Except Unit β) (allowClear : Bool) :
    ParalelQueue β → ParalelQueue β → Prop where
  | refl (s : ParalelQueue β) : PReach res allowClear s s
  | tail (s t u : ParalelQueue β) (h : PReach res allowClear s t)
      (hstep : PStep res allowClear t u) : PReach res allowClear s u

/-- The result an emission for sequence number `i` would log. -/
def resOpt (r : Except Unit β) : Option β :=
  match r with
  | Except.ok b => some b
  | Except.error _ => none

/-- Invariant of every state reachable without `clear()`: the stored item
keys are the contiguous range `[outp_order, push_order)`, exactly the orders
below `work_order` have been launched (each once, in order), tasks that
passed their turn wait are exactly the orders below `outp_order`, a finished
handler's held result is its `res` value, and — the heart of claim C1 — the
output log is exactly the results of orders `0, 1, ..., outp_order - 1` in
that order. -/
def PQInv (res : Nat → Except Unit β) (s : ParalelQueue β) : Prop :=
  s.openQ = true
  ∧ s.clearing = false
  ∧ s.outp_order ≤ s.work_order
  ∧ s.work_order ≤ s.push_order
  ∧ s.items = List.range' s.outp_order (s.push_order - s.outp_order)
  ∧ s.tasks.map Prod.fst = List.range s.work_order
  ∧ (∀ p ∈ s.tasks,
      (∀ r, p.2 = TPhase.turnWait r → ∃ b, res p.1 = Except.ok b ∧ r = some b)
      ∧ (p.1 < s.outp_order → p.2 = TPhase.done))
  ∧ s.output = (List.range s.outp_order).map (fun i => resOpt (res i))

/-! ## Concrete scenario states -/

/-- Handler outcomes where every handler fulfils with `0`. -/
def resW : Nat → Except Unit Nat := fun _ => Except.ok 0

/-- Handler outcomes where handler 0 throws and every other handler `i`
fulfils with `i`. -/
def resE : Nat → Except Unit Nat := fun i => if i = 0 then Except.error () else Except.ok i

/-- Freshly built `ParalelQueue` with limit 1. -/
def pqW0 : ParalelQueue Nat := mkParalelQueue Nat 1

/-- After `push`: item 0 stored, dispatcher entering the loop. -/
def pqW1 : ParalelQueue Nat :=
  { pqW0 with items := pqW0.items ++ [pqW0.push_order],
              push_order := pqW0.push_order + 1,
              working := true,
              clearing := pqW0.working && pqW0.clearing,
              dpc := if pqW0.working then pqW0.dpc else DPhase.atLoop }

/-- After the dispatcher launched `callback` for item 0. -/
def pqW2 : ParalelQueue Nat :=
  { pqW1 with work_order := pqW1.work_order + 1,
              curr_working := pqW1.curr_working + 1,
              tasks := pqW1.tasks ++
                [(pqW1.work_order,
                  if pqW1.openQ then TPhase.compute else TPhase.turnWait none)],
              dpc := DPhase.atWait }

/-- After handler 0 fulfilled with `0`. -/
def pqW3 : ParalelQueue Nat :=
  { pqW2 with tasks := updTask pqW2.tasks 0 (TPhase.turnWait (some 0)) }

/-- After item 0 passed its turn wait and was emitted. -/
def pqW4 : ParalelQueue Nat :=
  { pqW3 with output :=
                if pqW3.openQ = true ∧ 0 ∈ pqW3.items then pqW3.output ++ [some 0]
                else pqW3.output,
              items := pqW3.items.erase 0,
              curr_working := pqW3.curr_working - 1,
              outp_order := pqW3.outp_order + 1,
              tasks := updTask pqW3.tasks 0 TPhase.done }

/-- Claim C5 run (limit 2, handler 0 throws): freshly built queue. -/
def pqE0 : ParalelQueue Nat := mkParalelQueue Nat 2

/-- After the first `push` (item 0). -/
def pqE1 : ParalelQueue Nat :=
  { pqE0 with items := pqE0.items ++ [pqE0.push_order],
              push_order := pqE0.push_order + 1,
              working := true,
              clearing := pqE0.working && pqE0.clearing,
              dpc := if pqE0.working then pqE0.dpc else DPhase.atLoop }

/-- After the second `push` (item 1). -/
def pqE2 : ParalelQueue Nat :=
  { pqE1 with items := pqE1.items ++ [pqE1.push_order],
              push_order := pqE1.push_order + 1,
              working := true,
              clearing := pqE1.working && pqE1.clearing,
              dpc := if pqE1.working then pqE1.dpc else DPhase.atLoop }

/-- After the dispatcher launched `callback` for item 0. -/
def pqE3 : ParalelQueue Nat :=
  { pqE2 with work_order := pqE2.work_order + 1,
              curr_working := pqE2.curr_working + 1,
              tasks := pqE2.tasks ++
                [(pqE2.work_order,
                  if pqE2.openQ then TPhase.compute else TPhase.turnWait none)],
              dpc := DPhase.atWait }

/-- After the concurrency wait passed (1 in flight < limit 2). -/
def pqE4 : ParalelQueue Nat := { pqE3 with dpc := DPhase.atLoop }

/-- After the dispatcher launched `callback` for item 1. -/
def pqE5 : ParalelQueue Nat :=
  { pqE4 with work_order := pqE4.work_order + 1,
              curr_working := pqE4.curr_working + 1,
              tasks := pqE4.tasks ++
                [(pqE4.work_order,
                  if pqE4.openQ then TPhase.compute else TPhase.turnWait none)],
              dpc := DPhase.atWait }

/-- After handler 0 threw: its `callback` aborted at the `await`. -/
def pqE6 : ParalelQueue Nat :=
  { pqE5 with tasks := updTask pqE5.tasks 0 TPhase.aborted }

/-- After handler 1 (the sibling) fulfilled with `1`: it now spins on the
turn wait for `outp_order = 1`, which nothing will ever set. -/
def pqE7 : ParalelQueue Nat :=
  { pqE6 with tasks := updTask pqE6.tasks 1 (TPhase.turnWait (some 1)) }

/-- No step at all is possible from `pqE7`: the queue is deadlocked. -/
def c5Frozen : Prop := ∀ t, PReach resE false pqE7 t → t = pqE7

/-- Claim C7 run (limit 1): `clear()` while handler 0's result waits for its
turn. -/
def pqC4 : ParalelQueue Nat := { pqW3 with items := [], clearing := true }

/-- Task 0 exits the turn wait through the clearing path: suppressed, and
`curr_working` is left at 1. -/
def pqC5 : ParalelQueue Nat :=
  { pqC4 with outp_order := pqC4.push_order,
              tasks := updTask pqC4.tasks 0 TPhase.doneSuppressed }

/-- A subsequent `push` (item 1) is accepted, but the dispatcher is parked in
the concurrency wait with `curr_working = limit` forever. -/
def pqC6 : ParalelQueue Nat :=
  { pqC5 with items := pqC5.items ++ [pqC5.push_order],
              push_order := pqC5.push_order + 1,
              working := true,
              clearing := pqC5.working && pqC5.clearing,
              dpc := if pqC5.working then pqC5.dpc else DPhase.atLoop }

/-- The jammed configuration after `clear()`: the suppressed task never gave
back its `curr_working` slot, the dispatcher never leaves the concurrency
wait, no further task is ever launched and nothing is ever emitted. -/
def PQJam (t : ParalelQueue Nat) : Prop :=
  t.output = [] ∧ t.tasks = [(0, TPhase.doneSuppressed)] ∧ t.curr_working = 1
  ∧ t.limit = 1 ∧ t.openQ = true ∧ t.dpc = DPhase.atWait ∧ t.working = true

/-- Every state reachable from `pqC6` is still jammed: the item pushed after
`clear()` is never dispatched and never emitted. -/
def c7NeverDispatched : Prop := ∀ t, PReach resW true pqC6 t → PQJam t

/-- Handler for the `SerialQueue` scenario: item 2 reports a defined falsy
result, everything else succeeds. -/
def f0 : Nat → Option Bool := fun n => if n = 2 then some false else some true

/-- A `SerialQueue` holding backlog `[5, 6, 2, 9]`. -/
def sq0 : SerialQueue Nat := { items := [5, 6, 2, 9], limit := 1, working := false, openQ := true }

/-! ## Theorems -/

/-- C9: with window K = 2, enqueueing A, B, C (ids 0, 1, 2) makes A and B
active while C waits; C's raw index is 2 and the position reported for it by
`QueueTrackerController.getQueueState` is 1 (first waiting slot); after
`dequeue(A)`, B stays active, C becomes active and its wait resolves
`true`. -/
theorem c9_admission_scenario :
    OrderedQueue.construct 2 = Except.ok oq2
    ∧ oq2.enqueue.1 = 0
    ∧ oq2.enqueue.2.enqueue.1 = 1
    ∧ oq2.enqueue.2.enqueue.2.enqueue.1 = 2
    ∧ oq2abc.active 0 = true
    ∧ oq2abc.active 1 = true
    ∧ oq2abc.active 2 = false
    ∧ oq2abc.getPosition 2 = 2
    ∧ queueStatePosition oq2abc.max 2 = 1
    ∧ (oq2abc.dequeue 0).1 = true
    ∧ oq2bc.active 1 = true
    ∧ oq2bc.active 2 = true
    ∧ oq2bc.wait 2 = some true := by
  exact ⟨rfl, by decide⟩

/-- C10: `SerialQueue` and `ParalelQueue` accept a non-positive concurrency
limit and silently fall back to limit 1, while the `OrderedQueue`
constructor throws for any limit below 1. -/
theorem c10_constructor_limits (l : Int) (h : l ≤ 0) :
    (mkSerialQueue Unit l).limit = 1
    ∧ (mkParalelQueue Unit l).limit = 1
    ∧ OrderedQueue.construct l = Except.error "Limit cannot be less than 1." := by
  have h1 : ¬ (0 : Int) < l := by omega
  have h2 : l < 1 := by omega
  refine ⟨?_, ?_, ?_⟩
  · simp [mkSerialQueue, h1]
  · simp [mkParalelQueue, h1]
  · simp [OrderedQueue.construct, h2]

/-- Witness for C10 at the concrete limit `-3`. -/
theorem c10_constructor_limits_witness :
    (mkSerialQueue Unit (-3)).limit = 1
    ∧ (mkParalelQueue Unit (-3)).limit = 1
    ∧ OrderedQueue.construct (-3) = Except.error "Limit cannot be less than 1." :=
  c10_constructor_limits (-3) (by decide)

/-- C6 counterexample: with K = 1, ticket 0 is admitted (its wait outcome is
memoized as `true`), but after `dequeue(0)` a further `wait(0)` call returns
`false`, not the memoized `true` — the waiter entry was deleted, so the
claim "calling after resolution returns the same memoized outcome" fails for
an admitted-then-dequeued ticket. -/
theorem c6_counterexample :
    oq1a.wait 0 = some true
    ∧ oq1a.promises.lookup 0 = some (some true)
    ∧ (oq1a.dequeue 0).1 = true
    ∧ oq1d.wait 0 = some false := by
  decide

/-- C4 counterexample: source emits one byte and then errors.  The error is
forwarded to the output stream, but the pending `getHeader()` and
`getHash()` promises are NOT resolved (the partial header `[7]` had been
captured, yet `headerResolved`/`hashResolved` stay `none`) — the waiters
hang, contradicting the claim. -/
theorem c4_counterexample :
    (runToError [[7]]).outputErrored = true
    ∧ (runToError [[7]]).header = [7]
    ∧ (runToError [[7]]).headerResolved = none
    ∧ (runToError [[7]]).hashResolved = none := by
  decide

/-- The executed items form a prefix of the backlog: execution is strictly
FIFO, one at a time. -/
theorem serialWorkList_prefix (f : α → Option Bool) (l : List α) :
    (serialWorkList f l).1 <+: l := by
  induction l with
  | nil => simp [serialWorkList]
  | cons a rest ih =>
    by_cases h : f a = some false
    · simp [serialWorkList, h]
    · simpa [serialWorkList, h] using ih

/-- When no item reports a defined falsy result, the whole backlog is
executed and the queue does not close. -/
theorem serialWorkList_noStop (f : α → Option Bool) (l : List α)
    (h : ∀ a ∈ l, f a ≠ some false) : serialWorkList f l = (l, false) := by
  induction l with
  | nil => simp [serialWorkList]
  | cons a rest ih =>
    have ha : f a ≠ some false := h a (by simp)
    have := ih (fun b hb => h b (by simp [hb]))
    simp [serialWorkList, ha, this]

/-- When the first stop item is `a` (everything before it succeeds), exactly
the items up to and including `a` are executed and the queue closes. -/
theorem serialWorkList_stop (f : α → Option Bool) (pre : List α) (a : α) (suf : List α)
    (hpre : ∀ b ∈ pre, f b ≠ some false) (ha : f a = some false) :
    serialWorkList f (pre ++ a :: suf) = (pre ++ [a], true) := by
  induction pre with
  | nil => simp [serialWorkList, ha]
  | cons b tl ih =>
    have hb : f b ≠ some false := hpre b (by simp)
    have := ih (fun c hc => hpre c (by simp [hc]))
    simp [serialWorkList, hb, this]

/-- C8: `SerialQueue` executes its backlog one at a time in FIFO push order
(the executed items are a prefix of the backlog); if some handler returns a
defined falsy result, exactly the items up to and including the first such
item run, the queue transitions to closed with the rest of the backlog
discarded unexecuted, and every subsequent `push` returns `false` without
appending. -/
theorem c8_serial_fifo_early_stop (f : α → Option Bool) (q : SerialQueue α) :
    ((SerialQueue.work f q).2 <+: q.items)
    ∧ ((∀ a ∈ q.items, f a ≠ some false) →
        (SerialQueue.work f q).2 = q.items
        ∧ (SerialQueue.work f q).1.openQ = q.openQ
        ∧ (SerialQueue.work f q).1.items = [])
    ∧ (∀ pre a suf, q.items = pre ++ a :: suf → (∀ b ∈ pre, f b ≠ some false) →
        f a = some false →
        (SerialQueue.work f q).2 = pre ++ [a]
        ∧ (SerialQueue.work f q).1.openQ = false
        ∧ (SerialQueue.work f q).1.items = []
        ∧ (∀ x, ((SerialQueue.work f q).1).push x = (false, (SerialQueue.work f q).1))) := by
  refine ⟨?_, ?_, ?_⟩
  · simpa [SerialQueue.work] using serialWorkList_prefix f q.items
  · intro h
    simp [SerialQueue.work, serialWorkList_noStop f q.items h]
  · intro pre a suf hitems hpre ha
    have hw := serialWorkList_stop f pre a suf hpre ha
    refine ⟨?_, ?_, ?_, ?_⟩
    · simp [SerialQueue.work, hitems, hw]
    · simp [SerialQueue.work, hitems, hw, SerialQueue.close]
    · simp [SerialQueue.work, hitems, hw, SerialQueue.close]
    · intro x
      simp [SerialQueue.work, hitems, hw, SerialQueue.close, SerialQueue.push]

/-- Witness for C8: backlog `[5, 6, 2, 9]` where item 2 reports failure —
items 5, 6, 2 execute in order, the queue closes, item 9 is discarded, and a
later push of 7 is rejected without appending. -/
theorem c8_serial_fifo_early_stop_witness :
    (SerialQueue.work f0 sq0).2 = [5, 6, 2]
    ∧ (SerialQueue.work f0 sq0).1.openQ = false
    ∧ (SerialQueue.work f0 sq0).1.items = []
    ∧ ((SerialQueue.work f0 sq0).1).push 7 = (false, (SerialQueue.work f0 sq0).1) := by
  have h := (c8_serial_fifo_early_stop f0 sq0).2.2 [5, 6] 2 [9] rfl (by decide) (by decide)
  exact ⟨by simpa using h.1, h.2.1, h.2.2.1, h.2.2.2 7⟩

/-- Taking `min n l.length` elements is the same as taking `n`. -/
theorem take_min_length (l : List γ) (n : Nat) :
    l.take (Min.min n l.length) = l.take n := by
  rcases Nat.le_total n l.length with h | h
  · rw [Nat.min_eq_left h]
  · rw [Nat.min_eq_right h, List.take_of_length_le h, List.take_of_length_le (Nat.le_refl _)]

/-- Full characterization of one `data` event against the bytes `B` seen so
far. -/
theorem onData_fields (s : StreamPiper) (c B : List Nat)
    (h3 : s.header = B.take HEADER_SIZE)
    (h4 : s.isHeaderFinalized = decide (HEADER_SIZE ≤ B.length))
    (h5 : s.headerResolved =
      (if HEADER_SIZE ≤ B.length then some (B.take HEADER_SIZE) else none)) :
    s.onData c =
      { header := (B ++ c).take HEADER_SIZE,
        hashBytes := s.hashBytes ++ c,
        dataHash := s.dataHash,
        headerResolved :=
          (if HEADER_SIZE ≤ (B ++ c).length then some ((B ++ c).take HEADER_SIZE) else none),
        hashResolved := s.hashResolved,
        outputChunks := s.outputChunks ++ [c],
        outputEnded := s.outputEnded,
        outputErrored := s.outputErrored,
        isHeaderFinalized := decide (HEADER_SIZE ≤ (B ++ c).length) } := by
  by_cases hf : HEADER_SIZE ≤ B.length
  · have hfin : s.isHeaderFinalized = true := by rw [h4]; exact decide_eq_true hf
    have hf2 : HEADER_SIZE ≤ (B ++ c).length := by rw [List.length_append]; omega
    have htake : (B ++ c).take HEADER_SIZE = B.take HEADER_SIZE :=
      List.take_append_of_le_length hf
    simp only [StreamPiper.onData, hfin]
    simp [htake, hf, hf2, h3, h5]
    omega
  · have hlen : B.length < HEADER_SIZE := Nat.not_le.mp hf
    have hfin : s.isHeaderFinalized = false := by rw [h4]; simp [hf]
    have hBtake : B.take HEADER_SIZE = B := List.take_of_length_le (Nat.le_of_lt hlen)
    have hhdr : s.header = B := by rw [h3, hBtake]
    have hres : s.headerResolved = none := by rw [h5, if_neg hf]
    have htakemin :
        c.take (Min.min (HEADER_SIZE - B.length) c.length) =
          c.take (HEADER_SIZE - B.length) := take_min_length c _
    have htake2 : (B ++ c).take HEADER_SIZE = B ++ c.take (HEADER_SIZE - B.length) := by
      rw [List.take_append_eq_append_take, hBtake]
    have hiff : (HEADER_SIZE ≤ (B ++ c.take (HEADER_SIZE - B.length)).length) ↔
        (HEADER_SIZE ≤ (B ++ c).length) := by
      simp only [List.length_append, List.length_take]
      omega
    have hP : (HEADER_SIZE ≤ B.length + Min.min (HEADER_SIZE - B.length) c.length) ↔
        (HEADER_SIZE ≤ B.length + c.length) := by
      rcases Nat.le_total (HEADER_SIZE - B.length) c.length with hm | hm
      · rw [Nat.min_eq_left hm]; omega
      · rw [Nat.min_eq_right hm]
    by_cases hdone : HEADER_SIZE ≤ (B ++ c).length
    · have hdone2 : HEADER_SIZE ≤ B.length + c.length := by
        rw [List.length_append] at hdone; exact hdone
      simp only [StreamPiper.onData, hfin]
      simp [hhdr, htakemin, hdone, hdone2, htake2, hres, resolveOnce, hP]
    · have hdone2 : ¬ HEADER_SIZE ≤ B.length + c.length := by
        rw [List.length_append] at hdone; exact hdone
      simp only [StreamPiper.onData, hfin]
      simp [hhdr, htakemin, hdone, hdone2, htake2, hres, hP]

/-- Full characterization of the `end` event against the bytes `B` seen so
far. -/
theorem onEnd_fields (s : StreamPiper) (B : List Nat)
    (h1 : s.hashBytes = B)
    (h3 : s.header = B.take HEADER_SIZE)
    (h5 : s.headerResolved =
      (if HEADER_SIZE ≤ B.length then some (B.take HEADER_SIZE) else none))
    (h6 : s.hashResolved = none) :
    s.onEnd =
      { header := B.take HEADER_SIZE,
        hashBytes := B,
        dataHash := some B,
        headerResolved := some (B.take HEADER_SIZE),
        hashResolved := some B,
        outputChunks := s.outputChunks,
        outputEnded := true,
        outputErrored := s.outputErrored,
        isHeaderFinalized := true } := by
  by_cases hf : HEADER_SIZE ≤ B.length
  · have hnot : ¬ s.header.length < HEADER_SIZE := by
      rw [h3, List.length_take]; omega
    simp only [StreamPiper.onEnd]
    simp [hnot, h1, h3, h5, hf, h6, resolveOnce]
  · have hyes : s.header.length < HEADER_SIZE := by
      rw [h3, List.length_take]; omega
    have hlt : B.length < HEADER_SIZE := by omega
    have hBtake : B.take HEADER_SIZE = B := List.take_of_length_le (by omega)
    simp only [StreamPiper.onEnd]
    simp [hyes, h1, h3, h5, hf, h6, resolveOnce, hBtake, hlt]

/-- One `data` event preserves the mid-stream characterization. -/
theorem piperMid_onData (s : StreamPiper) (chunks : List (List Nat)) (c : List Nat)
    (h : PiperMid s chunks) : PiperMid (s.onData c) (chunks ++ [c]) := by
  obtain ⟨h1, h2, h3, h4, h5, h6, h7, h8, h9⟩ := h
  have key := onData_fields s c chunks.flatten h3 h4 h5
  have hfl : (chunks ++ [c]).flatten = chunks.flatten ++ c := by simp
  refine ⟨?_, ?_, ?_, ?_, ?_, ?_, ?_, ?_, ?_⟩ <;>
    simp [key, hfl, h1, h2, h6, h7, h8, h9]

/-- Folding `data` events preserves the mid-stream characterization. -/
theorem piperMid_fold (chunks : List (List Nat)) :
    ∀ (s : StreamPiper) (pre : List (List Nat)), PiperMid s pre →
      PiperMid (chunks.foldl StreamPiper.onData s) (pre ++ chunks) := by
  induction chunks with
  | nil => intro s pre h; simpa using h
  | cons c cs ih =>
    intro s pre h
    have h2 := piperMid_onData s pre c h
    have h3 := ih (s.onData c) (pre ++ [c]) h2
    simpa using h3

/-- Every state of the single pass is characterized by the bytes seen so
far. -/
theorem runChunks_mid (chunks : List (List Nat)) : PiperMid (runChunks chunks) chunks := by
  have h0 : PiperMid initPiper [] := by
    refine ⟨rfl, rfl, rfl, ?_, ?_, rfl, rfl, rfl, rfl⟩ <;> simp [initPiper, HEADER_SIZE]
  simpa using piperMid_fold chunks initPiper [] h0

/-- C2: driving a source of chunks to completion resolves `getHeader()` with
exactly the first `min(L, HEADER_SIZE)` source bytes, resolves
`getHash()` (only after the end event — every intermediate state still has a
pending hash promise) with the digest taken over all `L` bytes, and writes
exactly the `L` source bytes, in order, to the output stream, which is then
ended. -/
theorem c2_streamtee_single_pass (chunks : List (List Nat)) :
    (runToEnd chunks).headerResolved = some (chunks.flatten.take HEADER_SIZE)
    ∧ (chunks.flatten.take HEADER_SIZE).length = Min.min chunks.flatten.length HEADER_SIZE
    ∧ (runToEnd chunks).hashResolved = some chunks.flatten
    ∧ (runToEnd chunks).dataHash = some chunks.flatten
    ∧ (runToEnd chunks).outputChunks.flatten = chunks.flatten
    ∧ (runToEnd chunks).outputEnded = true
    ∧ (∀ pre, pre <+: chunks → (runChunks pre).hashResolved = none) := by
  obtain ⟨h1, h2, h3, h4, h5, h6, h7, h8, h9⟩ := runChunks_mid chunks
  have key := onEnd_fields (runChunks chunks) chunks.flatten h1 h3 h5 h6
  have hlen : (chunks.flatten.take HEADER_SIZE).length =
      Min.min chunks.flatten.length HEADER_SIZE := by
    rw [List.length_take, Nat.min_comm]
  refine ⟨?_, hlen, ?_, ?_, ?_, ?_, ?_⟩
  · show (runToEnd chunks).headerResolved = _
    rw [runToEnd, key]
  · show (runToEnd chunks).hashResolved = _
    rw [runToEnd, key]
  · show (runToEnd chunks).dataHash = _
    rw [runToEnd, key]
  · show (runToEnd chunks).outputChunks.flatten = _
    rw [runToEnd, key]
    rw [h2]
  · show (runToEnd chunks).outputEnded = _
    rw [runToEnd, key]
  · intro pre _
    exact (runChunks_mid pre).2.2.2.2.2.1

/-- Witness for C2 on the concrete source `[1, 2], [3]`. -/
theorem c2_streamtee_single_pass_witness :
    (runToEnd [[1, 2], [3]]).headerResolved = some [1, 2, 3]
    ∧ (runToEnd [[1, 2], [3]]).hashResolved = some [1, 2, 3]
    ∧ (runToEnd [[1, 2], [3]]).outputChunks.flatten = [1, 2, 3]
    ∧ (runToEnd [[1, 2], [3]]).outputEnded = true
    ∧ (runChunks [[1, 2]]).hashResolved = none := by
  have h := c2_streamtee_single_pass [[1, 2], [3]]
  refine ⟨?_, ?_, ?_, h.2.2.2.2.2.1, h.2.2.2.2.2.2 [[1, 2]] ⟨[[3]], rfl⟩⟩
  · have h1 := h.1
    simpa using h1
  · have h1 := h.2.2.1
    simpa using h1
  · have h1 := h.2.2.2.2.1
    simpa using h1

/-- C4 amended: a source error is forwarded to the output stream as an error
signal, but the error handler resolves nothing — the header promise keeps
whatever state it already had (still pending unless `HEADER_SIZE` bytes had
arrived) and the hash promise is still pending, so waiters on them hang. -/
theorem c4_amended_error_propagation (chunks : List (List Nat)) :
    (runToError chunks).outputErrored = true
    ∧ (runToError chunks).headerResolved =
        (if HEADER_SIZE ≤ chunks.flatten.length then some (chunks.flatten.take HEADER_SIZE)
         else none)
    ∧ (runToError chunks).hashResolved = none
    ∧ (runToError chunks).dataHash = none := by
  obtain ⟨h1, h2, h3, h4, h5, h6, h7, h8, h9⟩ := runChunks_mid chunks
  exact ⟨rfl, h5, h6, h7⟩

/-! ## OrderedQueue invariant machinery -/

/-- A one-shot resolve leaves every other key untouched. -/
theorem lookup_rp_ne (ps : List (Nat × Option Bool)) (id : Nat) (b : Bool) (j : Nat)
    (h : j ≠ id) : (resolvePromise ps id b).lookup j = ps.lookup j := by
  induction ps with
  | nil => rfl
  | cons p tl ih =>
    obtain ⟨k, v⟩ := p
    by_cases hjk : j = k
    · subst hjk
      by_cases hcond : j = id ∧ v = none
      · exact absurd hcond.1 h
      · simp [resolvePromise, List.lookup_cons, hcond]
    · by_cases hcond : k = id ∧ v = none
      · simp only [resolvePromise, List.map_cons, if_pos hcond]
        rw [List.lookup_cons, List.lookup_cons]
        simp only [show (j == k) = false by simp [hjk]]
        simpa [resolvePromise] using ih
      · simp only [resolvePromise, List.map_cons, if_neg hcond]
        rw [List.lookup_cons, List.lookup_cons]
        simp only [show (j == k) = false by simp [hjk]]
        simpa [resolvePromise] using ih

/-- A one-shot resolve settles a pending entry for its key and keeps a
settled one. -/
theorem lookup_rp_self (ps : List (Nat × Option Bool)) (id : Nat) (b : Bool) :
    (resolvePromise ps id b).lookup id =
      (ps.lookup id).map (fun v => if v = none then some b else v) := by
  induction ps with
  | nil => rfl
  | cons p tl ih =>
    obtain ⟨k, v⟩ := p
    by_cases hk : k = id
    · subst hk
      by_cases hv : v = none
      · subst hv
        simp [resolvePromise, List.lookup_cons]
      · simp [resolvePromise, List.lookup_cons, hv]
    · simp only [resolvePromise, List.map_cons]
      rw [if_neg (by simp [hk])]
      rw [List.lookup_cons, List.lookup_cons]
      simp only [show (id == k) = false by simp [Ne.symm hk]]
      simpa [resolvePromise] using ih

/-- Looking up after a one-shot resolve: the entry for `id` is settled if it
was pending, every other key is untouched. -/
theorem lookup_resolvePromise (ps : List (Nat × Option Bool)) (id : Nat) (b : Bool) (j : Nat) :
    (resolvePromise ps id b).lookup j =
      if j = id then (ps.lookup id).map (fun v => if v = none then some b else v)
      else ps.lookup j := by
  by_cases hj : j = id
  · subst hj
    rw [if_pos rfl]
    exact lookup_rp_self ps j b
  · rw [if_neg hj]
    exact lookup_rp_ne ps id b j hj

/-- A one-shot resolve does not change the key list. -/
theorem keys_resolvePromise (ps : List (Nat × Option Bool)) (id : Nat) (b : Bool) :
    (resolvePromise ps id b).map Prod.fst = ps.map Prod.fst := by
  induction ps with
  | nil => rfl
  | cons p tl ih =>
    obtain ⟨k, v⟩ := p
    by_cases h : k = id ∧ v = none
    · simp [resolvePromise, h.1, h.2] at *
      exact ih
    · simp only [resolvePromise, List.map_cons, if_neg h] at *
      simp [ih]

/-- Looking up after the `processQueue` fold: an id in the processed list
with a waiter and a pending promise gets `true`; everything else keeps its
state. -/
theorem lookup_processFold (W : List Nat) (L : List Nat) :
    ∀ (ps : List (Nat × Option Bool)) (j : Nat),
      ((L.foldl (fun ps id => if id ∈ W then resolvePromise ps id true else ps) ps).lookup j) =
        (if j ∈ L ∧ j ∈ W ∧ ps.lookup j = some none then some (some true)
         else ps.lookup j) := by
  induction L with
  | nil => intro ps j; simp
  | cons a tlL ih =>
    intro ps j
    simp only [List.foldl_cons]
    rw [ih]
    by_cases hj : j = a
    · subst hj
      by_cases hg : j ∈ W
      · rcases hv : ps.lookup j with _ | v
        · have h1 : ((if j ∈ W then resolvePromise ps j true else ps)).lookup j = none := by
            rw [if_pos hg, lookup_resolvePromise, if_pos rfl, hv]; rfl
          simp [h1, hv]
        · rcases v with _ | c
          · have h2 : (resolvePromise ps j true).lookup j = some (some true) := by
              rw [lookup_resolvePromise, if_pos rfl, hv]; rfl
            simp [hg, hv, h2]
          · have h1 : ((if j ∈ W then resolvePromise ps j true else ps)).lookup j =
                some (some c) := by
              rw [if_pos hg, lookup_resolvePromise, if_pos rfl, hv]; rfl
            simp [h1, hv]
      · have h1 : ((if j ∈ W then resolvePromise ps j true else ps)).lookup j =
            ps.lookup j := by
          rw [if_neg hg]
        simp [h1, hg]
    · have h1 : ((if a ∈ W then resolvePromise ps a true else ps)).lookup j =
          ps.lookup j := by
        by_cases hg : a ∈ W
        · rw [if_pos hg, lookup_resolvePromise, if_neg hj]
        · rw [if_neg hg]
      simp [h1, hj]

/-- The `processQueue` fold does not change the key list. -/
theorem keys_processFold (W : List Nat) (L : List Nat) :
    ∀ (ps : List (Nat × Option Bool)),
      ((L.foldl (fun ps id => if id ∈ W then resolvePromise ps id true else ps) ps).map Prod.fst) =
        ps.map Prod.fst := by
  induction L with
  | nil => intro ps; rfl
  | cons a tlL ih =>
    intro ps
    simp only [List.foldl_cons]
    rw [ih]
    by_cases hg : a ∈ W
    · rw [if_pos hg, keys_resolvePromise]
    · rw [if_neg hg]

/-- A key is absent from an association list iff its lookup is `none`. -/
theorem lookup_eq_none_iff (ps : List (Nat × Option Bool)) (j : Nat) :
    ps.lookup j = none ↔ j ∉ ps.map Prod.fst := by
  induction ps with
  | nil => simp
  | cons p tl ih =>
    obtain ⟨k, v⟩ := p
    by_cases hj : j = k
    · subst hj
      simp [List.lookup_cons]
    · rw [List.lookup_cons]
      simp only [show (j == k) = false by simp [hj]]
      simp [hj, ih]

/-- Lookup distributes over append, preferring the left list. -/
theorem lookup_append_left (l1 l2 : List (Nat × Option Bool)) (j : Nat) (v : Option Bool)
    (h : l1.lookup j = some v) : (l1 ++ l2).lookup j = some v := by
  induction l1 with
  | nil => simp [List.lookup] at h
  | cons p tl ih =>
    obtain ⟨k, w⟩ := p
    rw [List.lookup_cons] at h
    rw [List.cons_append, List.lookup_cons]
    rcases hk : (j == k) with _ | _
    · rw [hk] at h
      simpa using ih (by simpa using h)
    · rw [hk] at h
      simpa using h

/-- Lookup falls through to the right list when the key misses the left. -/
theorem lookup_append_right (l1 l2 : List (Nat × Option Bool)) (j : Nat)
    (h : l1.lookup j = none) : (l1 ++ l2).lookup j = l2.lookup j := by
  induction l1 with
  | nil => simp
  | cons p tl ih =>
    obtain ⟨k, w⟩ := p
    rw [List.lookup_cons] at h
    rw [List.cons_append, List.lookup_cons]
    rcases hk : (j == k) with _ | _
    · rw [hk] at h
      simpa using ih (by simpa using h)
    · rw [hk] at h
      simp at h

/-- Membership in a prefix is equivalent to the first occurrence being early
enough. -/
theorem mem_take_iff_indexOf (l : List Nat) (a : Nat) (h : a ∈ l) :
    ∀ k, (a ∈ l.take k ↔ l.indexOf a < k) := by
  induction l with
  | nil => cases h
  | cons b tl ih =>
    intro k
    cases k with
    | zero => simp
    | succ k =>
      rw [List.take_succ_cons]
      by_cases hb : b = a
      · subst hb
        simp [List.indexOf_cons_self]
      · have hmem : a ∈ tl := by
          rcases List.mem_cons.mp h with h' | h'
          · exact absurd h'.symm hb
          · exact h'
        rw [List.indexOf_cons_ne _ (by simpa using hb)]
        simp only [List.mem_cons]
        rw [ih hmem k]
        constructor
        · rintro (h' | h')
          · exact absurd h'.symm hb
          · omega
        · intro h'
          right
          omega

/-- Prefix membership is monotone in the prefix length. -/
theorem mem_take_le (l : List Nat) (x : Nat) :
    ∀ k k', k ≤ k' → x ∈ l.take k → x ∈ l.take k' := by
  induction l with
  | nil => intro k k' _ h; simp at h
  | cons c tl ih =>
    intro k k' hkk h
    cases k with
    | zero => simp at h
    | succ k =>
      cases k' with
      | zero => omega
      | succ k' =>
        rw [List.take_succ_cons, List.mem_cons] at h ⊢
        rcases h with h | h
        · exact Or.inl h
        · exact Or.inr (ih k k' (by omega) h)

/-- Membership in a prefix survives erasing a different element. -/
theorem mem_take_erase (l : List Nat) (x b : Nat) (hne : x ≠ b) :
    ∀ k, x ∈ l.take k → x ∈ (l.erase b).take k := by
  induction l with
  | nil => intro k h; simp at h
  | cons c tl ih =>
    intro k h
    cases k with
    | zero => simp at h
    | succ k =>
      rw [List.take_succ_cons, List.mem_cons] at h
      by_cases hc : c = b
      · subst hc
        rw [List.erase_cons_head]
        rcases h with h | h
        · exact absurd h hne
        · exact mem_take_le tl x k (k + 1) (by omega) h
      · rw [List.erase_cons_tail (by simpa using hc), List.take_succ_cons, List.mem_cons]
        rcases h with h | h
        · exact Or.inl h
        · exact Or.inr (ih k h)

/-- The successor of a prefix position after erasing an element of the
prefix: if `a` sits in the first `k` entries and `nxt` is the entry at index
`k`, then after erasing `a` the element `nxt` is within the first `k`
entries. -/
theorem getElem?_erase_take (l : List Nat) (a nxt : Nat) :
    ∀ k, a ∈ l.take k → l[k]? = some nxt → nxt ∈ (l.erase a).take k := by
  induction l with
  | nil => intro k ha hk; simp at hk
  | cons c tl ih =>
    intro k ha hk
    cases k with
    | zero => simp at ha
    | succ k =>
      rw [List.take_succ_cons, List.mem_cons] at ha
      have hk2 : tl[k]? = some nxt := by simpa using hk
      by_cases hc : c = a
      · subst hc
        rw [List.erase_cons_head]
        have h1 : (tl.take (k + 1))[k]? = some nxt := by
          rw [List.getElem?_take_of_lt (by omega)]
          exact hk2
        exact List.getElem?_mem h1
      · rw [List.erase_cons_tail (by simpa using hc), List.take_succ_cons, List.mem_cons]
        rcases ha with ha | ha
        · exact absurd ha.symm hc
        · exact Or.inr (ih k ha hk2)

/-- `active` is exactly membership in the window prefix (for any state, not
just reachable ones). -/
theorem active_iff_mem_take (q : OrderedQueue) (id : Nat) :
    q.active id = true ↔ id ∈ q.queue.take q.limit := by
  unfold OrderedQueue.active
  simp only [Bool.and_eq_true, decide_eq_true_eq]
  constructor
  · rintro ⟨hlen, hlim⟩
    have hmem : id ∈ q.queue := List.indexOf_lt_length.mp hlen
    exact (mem_take_iff_indexOf q.queue id hmem q.limit).mpr hlim
  · intro h
    have hmem : id ∈ q.queue := List.take_subset _ _ h
    exact ⟨List.indexOf_lt_length.mpr hmem,
      (mem_take_iff_indexOf q.queue id hmem q.limit).mp h⟩

/-- `enqueue` preserves the invariant. -/
theorem oqInv_enqueue (q : OrderedQueue) (ih : OQInv q) : OQInv (q.enqueue).2 := by
  obtain ⟨W, P, N, K, A, Pend⟩ := ih
  have hq2 : (q.enqueue).2 =
      { limit := q.limit,
        queue := q.queue ++ [q.nextId],
        waiting := q.waiting ++ [q.nextId],
        promises :=
          (((q.queue ++ [q.nextId]).take q.limit).foldl
            (fun ps id =>
              if id ∈ q.waiting ++ [q.nextId] then resolvePromise ps id true else ps)
            (q.promises ++ [(q.nextId, none)])),
        nextId := q.nextId + 1 } := rfl
  rw [hq2]
  set n := q.nextId with hn
  have hLsub : ∀ x ∈ (q.queue ++ [n]).take q.limit, x ∈ q.queue.take q.limit ++ [n] := by
    rw [List.take_append_eq_append_take]
    intro x hx
    rcases List.mem_append.mp hx with hx | hx
    · exact List.mem_append.mpr (Or.inl hx)
    · exact List.mem_append.mpr (Or.inr (List.mem_of_mem_take hx))
  have hps0 : ∀ x ∈ q.queue, (q.promises ++ [(n, none)]).lookup x = q.promises.lookup x := by
    intro x hx
    rcases hv : q.promises.lookup x with _ | v
    · exact absurd ((lookup_eq_none_iff _ _).mp hv) (by rw [K]; simpa using N x hx)
    · exact lookup_append_left _ _ _ _ hv
  have hps0n : (q.promises ++ [(n, none)]).lookup n = some none := by
    rw [lookup_append_right]
    · simp [List.lookup_cons]
    · rw [lookup_eq_none_iff, K]
      simp
  refine ⟨?_, ?_, ?_, ?_, ?_, ?_⟩
  · show q.waiting ++ [n] = q.queue ++ [n]
    rw [W]
  · show (q.queue ++ [n]).Pairwise (· < ·)
    refine List.pairwise_append.mpr ⟨P, by simp, ?_⟩
    intro x hx y hy
    simp only [List.mem_singleton] at hy
    subst hy
    exact N x hx
  · intro x hx
    have hx' : x ∈ q.queue ++ [n] := hx
    show x < n + 1
    rcases List.mem_append.mp hx' with hx2 | hx2
    · have := N x hx2
      omega
    · simp only [List.mem_singleton] at hx2
      omega
  · show _ = List.range (n + 1)
    rw [keys_processFold]
    simp [K, List.range_succ]
  · intro x hx
    show _ = some (some true)
    rw [lookup_processFold]
    have hx' : x ∈ (q.queue ++ [n]).take q.limit := hx
    have hg : x ∈ q.waiting ++ [n] := by
      rw [W]
      rcases List.mem_append.mp (hLsub x hx') with hx2 | hx2
      · exact List.mem_append.mpr (Or.inl (List.take_subset _ _ hx2))
      · exact List.mem_append.mpr (Or.inr hx2)
    rcases List.mem_append.mp (hLsub x hx') with hx2 | hx2
    · have hlook : (q.promises ++ [(n, none)]).lookup x = some (some true) := by
        rw [hps0 x (List.take_subset _ _ hx2)]
        exact A x hx2
      simp [hlook]
    · simp only [List.mem_singleton] at hx2
      subst hx2
      simp [hx', hg, hps0n]
  · intro x hx hnot
    have hx' : x ∈ q.queue ++ [n] := hx
    have hnot' : x ∉ (q.queue ++ [n]).take q.limit := hnot
    show _ = some none
    rw [lookup_processFold]
    rcases List.mem_append.mp hx' with hx2 | hx2
    · have hxtake : x ∉ q.queue.take q.limit := by
        intro hc
        exact hnot' (by
          rw [List.take_append_eq_append_take]
          exact List.mem_append.mpr (Or.inl hc))
      have hlook : (q.promises ++ [(n, none)]).lookup x = some none := by
        rw [hps0 x hx2]
        exact Pend x hx2 hxtake
      simp [hnot', hlook]
    · simp only [List.mem_singleton] at hx2
      subst hx2
      simp [hnot', hps0n]

/-- `dequeue` preserves the invariant. -/
theorem oqInv_dequeue (q : OrderedQueue) (id : Nat) (ih : OQInv q) :
    OQInv (q.dequeue id).2 := by
  obtain ⟨W, P, N, K, A, Pend⟩ := ih
  have hnodup : q.queue.Nodup := List.Pairwise.imp (fun hlt => Nat.ne_of_lt hlt) P
  by_cases hid : id ∈ q.queue
  · have hidw : id ∈ q.waiting := by rw [W]; exact hid
    have hq2 : (q.dequeue id).2 =
        { limit := q.limit,
          queue := q.queue.erase id,
          waiting := q.waiting.erase id,
          promises :=
            (((q.queue.erase id).take q.limit).foldl
              (fun ps x =>
                if x ∈ q.waiting.erase id then resolvePromise ps x true else ps)
              (resolvePromise q.promises id false)),
          nextId := q.nextId } := by
      unfold OrderedQueue.dequeue
      rw [if_pos hid]
      unfold OrderedQueue.processQueue
      show ({ q with queue := q.queue.erase id,
                     promises :=
                       if id ∈ q.waiting then resolvePromise q.promises id false
                       else q.promises,
                     waiting := q.waiting.erase id } : OrderedQueue).processQueue = _
      rw [OrderedQueue.processQueue, if_pos hidw]
    rw [hq2]
    have hmem2 : ∀ x ∈ q.queue.erase id, x ≠ id ∧ x ∈ q.queue := by
      intro x hx
      exact (hnodup.mem_erase_iff.mp hx)
    have hps1 : ∀ x, x ≠ id →
        (resolvePromise q.promises id false).lookup x = q.promises.lookup x := by
      intro x hxne
      rw [lookup_resolvePromise, if_neg hxne]
    refine ⟨?_, ?_, ?_, ?_, ?_, ?_⟩
    · show q.waiting.erase id = q.queue.erase id
      rw [W]
    · show (q.queue.erase id).Pairwise (· < ·)
      exact List.Pairwise.sublist (List.erase_sublist id q.queue) P
    · intro x hx
      have hx' : x ∈ q.queue.erase id := hx
      show x < q.nextId
      exact N x (hmem2 x hx').2
    · show _ = List.range q.nextId
      rw [keys_processFold, keys_resolvePromise, K]
    · intro x hx
      have hx' : x ∈ (q.queue.erase id).take q.limit := hx
      obtain ⟨hxne, hxq⟩ := hmem2 x (List.take_subset _ _ hx')
      show _ = some (some true)
      rw [lookup_processFold]
      have hg : x ∈ q.waiting.erase id := by
        rw [W]
        exact List.take_subset _ _ hx'
      by_cases hxtake : x ∈ q.queue.take q.limit
      · have hlook : (resolvePromise q.promises id false).lookup x = some (some true) := by
          rw [hps1 x hxne]
          exact A x hxtake
        simp [hlook]
      · have hlook : (resolvePromise q.promises id false).lookup x = some none := by
          rw [hps1 x hxne]
          exact Pend x hxq hxtake
        simp [hx', hg, hlook]
    · intro x hx hnot
      have hx' : x ∈ q.queue.erase id := hx
      have hnot' : x ∉ (q.queue.erase id).take q.limit := hnot
      obtain ⟨hxne, hxq⟩ := hmem2 x hx'
      have hxtake : x ∉ q.queue.take q.limit := by
        intro hc
        exact hnot' (mem_take_erase q.queue x id hxne q.limit hc)
      show _ = some none
      rw [lookup_processFold]
      have hlook : (resolvePromise q.promises id false).lookup x = some none := by
        rw [hps1 x hxne]
        exact Pend x hxq hxtake
      simp [hnot', hlook]
  · have hq2 : (q.dequeue id).2 = q := by
      unfold OrderedQueue.dequeue
      rw [if_neg hid]
    rw [hq2]
    exact ⟨W, P, N, K, A, Pend⟩

/-- Every reachable state satisfies the invariant. -/
theorem oqInv_reachable (q : OrderedQueue) (h : q.Reachable) : OQInv q := by
  induction h with
  | init limit q hq =>
    unfold OrderedQueue.construct at hq
    by_cases hl : limit < 1
    · rw [if_pos hl] at hq
      cases hq
    · rw [if_neg hl] at hq
      cases hq
      exact ⟨rfl, by simp, by simp, by simp, by simp, by simp⟩
  | enq q hq ih => exact oqInv_enqueue q ih
  | deq q id hq ih => exact oqInv_dequeue q id ih

/-- C3: in every reachable state the active set is exactly the prefix of the
FIFO queue of window length (so exactly `min(K, N)` tickets are active, and
the active tickets arrived before every waiting ticket); dequeuing an active
ticket makes the ticket at position K active, and its wait resolves
`true`. -/
theorem c3_active_window_invariant (q : OrderedQueue) (h : q.Reachable) :
    (∀ id, q.active id = true ↔ id ∈ q.queue.take q.limit)
    ∧ (q.queue.take q.limit).length = Min.min q.limit q.queue.length
    ∧ (∀ x ∈ q.queue.take q.limit, ∀ y ∈ q.queue.drop q.limit, x < y)
    ∧ (∀ id nxt, q.active id = true → q.queue[q.limit]? = some nxt →
        ((q.dequeue id).2.active nxt = true ∧ (q.dequeue id).2.wait nxt = some true)) := by
  obtain ⟨W, P, N, K, A, Pend⟩ := oqInv_reachable q h
  refine ⟨fun id => active_iff_mem_take q id, List.length_take _ _, ?_, ?_⟩
  · have hp2 : (q.queue.take q.limit ++ q.queue.drop q.limit).Pairwise (· < ·) := by
      rw [List.take_append_drop]
      exact P
    exact (List.pairwise_append.mp hp2).2.2
  · intro id nxt hact hnxt
    have hidmem : id ∈ q.queue.take q.limit := (active_iff_mem_take q id).mp hact
    have hid : id ∈ q.queue := List.take_subset _ _ hidmem
    have hq2 : (q.dequeue id).2.queue = q.queue.erase id := by
      unfold OrderedQueue.dequeue
      rw [if_pos hid]
      rfl
    have hq2l : (q.dequeue id).2.limit = q.limit := by
      unfold OrderedQueue.dequeue
      rw [if_pos hid]
      rfl
    have hmem2 : nxt ∈ (q.queue.erase id).take q.limit :=
      getElem?_erase_take q.queue id nxt q.limit hidmem hnxt
    have hreach2 : (q.dequeue id).2.Reachable := OrderedQueue.Reachable.deq q id h
    obtain ⟨W2, P2, N2, K2, A2, Pend2⟩ := oqInv_reachable _ hreach2
    have hmem2' : nxt ∈ (q.dequeue id).2.queue.take (q.dequeue id).2.limit := by
      rw [hq2, hq2l]
      exact hmem2
    constructor
    · exact (active_iff_mem_take _ nxt).mpr hmem2'
    · have hlook : (q.dequeue id).2.promises.lookup nxt = some (some true) := A2 nxt hmem2'
      have hw : nxt ∈ (q.dequeue id).2.waiting := by
        rw [W2]
        exact List.take_subset _ _ hmem2'
      unfold OrderedQueue.wait
      rw [if_pos hw, hlook]
      rfl

/-- Witness for C3 on the K = 2 scenario queue `[0, 1, 2]`: instantiated at
the active ticket 0 and next-in-line ticket 2. -/
theorem c3_active_window_invariant_witness :
    (oq2abc.active 0 = true ↔ 0 ∈ oq2abc.queue.take oq2abc.limit)
    ∧ (oq2abc.dequeue 0).2.active 2 = true
    ∧ (oq2abc.dequeue 0).2.wait 2 = some true := by
  have hreach : oq2abc.Reachable :=
    OrderedQueue.Reachable.enq _ (OrderedQueue.Reachable.enq _
      (OrderedQueue.Reachable.enq _ (OrderedQueue.Reachable.init 2 oq2 rfl)))
  have h := c3_active_window_invariant oq2abc hreach
  have h4 := h.2.2.2 0 2 (by decide) (by decide)
  exact ⟨h.1 0, h4.1, h4.2⟩

/-- C6 amended: `wait` resolves `true` once a ticket is active and stays
`true` while the ticket is enqueued; a waiting (never admitted) ticket's
`wait` is pending, and dequeuing it settles its promise with `false` (both a
previously captured promise and a later `wait` call observe `false`); but
the waiter entry is deleted on dequeue, so for any ticket no longer in the
waiting map — including one that had been admitted with outcome `true` —
`wait` returns `false` rather than the memoized outcome. -/
theorem c6_amended_wait_semantics (q : OrderedQueue) (h : q.Reachable) :
    (∀ id, q.active id = true → q.wait id = some true)
    ∧ (∀ id, id ∈ q.queue → q.active id = false →
        (q.wait id = none
         ∧ (q.dequeue id).2.wait id = some false
         ∧ ((q.dequeue id).2.promises.lookup id) = some (some false)))
    ∧ (∀ id, id ∉ q.waiting → q.wait id = some false) := by
  obtain ⟨W, P, N, K, A, Pend⟩ := oqInv_reachable q h
  have hnodup : q.queue.Nodup := List.Pairwise.imp (fun hlt => Nat.ne_of_lt hlt) P
  refine ⟨?_, ?_, ?_⟩
  · intro id hact
    have hmem : id ∈ q.queue.take q.limit := (active_iff_mem_take q id).mp hact
    have hw : id ∈ q.waiting := by
      rw [W]
      exact List.take_subset _ _ hmem
    unfold OrderedQueue.wait
    rw [if_pos hw, A id hmem]
    rfl
  · intro id hmem hact
    have hnotake : id ∉ q.queue.take q.limit := by
      intro hc
      rw [(active_iff_mem_take q id).mpr hc] at hact
      cases hact
    have hpend : q.promises.lookup id = some none := Pend id hmem hnotake
    have hw : id ∈ q.waiting := by rw [W]; exact hmem
    refine ⟨?_, ?_, ?_⟩
    · unfold OrderedQueue.wait
      rw [if_pos hw, hpend]
      rfl
    · have hq2w : (q.dequeue id).2.waiting = q.waiting.erase id := by
        unfold OrderedQueue.dequeue
        rw [if_pos hmem]
        rfl
      have hnw : id ∉ (q.dequeue id).2.waiting := by
        rw [hq2w, W]
        intro hc
        exact (hnodup.mem_erase_iff.mp hc).1 rfl
      unfold OrderedQueue.wait
      rw [if_neg hnw]
    · have hq2 : (q.dequeue id).2.promises =
          (((q.queue.erase id).take q.limit).foldl
            (fun ps x =>
              if x ∈ q.waiting.erase id then resolvePromise ps x true else ps)
            (resolvePromise q.promises id false)) := by
        unfold OrderedQueue.dequeue
        rw [if_pos hmem]
        show ({ q with queue := q.queue.erase id,
                       promises :=
                         if id ∈ q.waiting then resolvePromise q.promises id false
                         else q.promises,
                       waiting := q.waiting.erase id } : OrderedQueue).processQueue.promises = _
        rw [OrderedQueue.processQueue, if_pos hw]
      rw [hq2, lookup_processFold]
      have hnein : id ∉ (q.queue.erase id).take q.limit := by
        intro hc
        exact (hnodup.mem_erase_iff.mp (List.take_subset _ _ hc)).1 rfl
      have hself : (resolvePromise q.promises id false).lookup id = some (some false) := by
        rw [lookup_rp_self, hpend]
        rfl
      simp [hnein, hself]
  · intro id hnw
    unfold OrderedQueue.wait
    rw [if_neg hnw]

/-- Witness for C6 amended on the K = 2 scenario queue `[0, 1, 2]`: the
active ticket 0 waits `true`; the waiting ticket 2 is pending, and dequeuing
it yields `false`; a ticket absent from the waiting map waits `false`. -/
theorem c6_amended_wait_semantics_witness :
    oq2abc.wait 0 = some true
    ∧ oq2abc.wait 2 = none
    ∧ (oq2abc.dequeue 2).2.wait 2 = some false
    ∧ oq2abc.wait 5 = some false := by
  have hreach : oq2abc.Reachable :=
    OrderedQueue.Reachable.enq _ (OrderedQueue.Reachable.enq _
      (OrderedQueue.Reachable.enq _ (OrderedQueue.Reachable.init 2 oq2 rfl)))
  have h := c6_amended_wait_semantics oq2abc hreach
  have hb := h.2.1 2 (by decide) (by decide)
  exact ⟨h.1 0 (by decide), hb.1, hb.2.1, h.2.2 5 (by decide)⟩

/-! ## ParalelQueue invariant machinery -/

/-- `updTask` preserves the order keys. -/
theorem updTask_map_fst (t : List (Nat × TPhase β)) (o : Nat) (ph : TPhase β) :
    (updTask t o ph).map Prod.fst = t.map Prod.fst := by
  induction t with
  | nil => rfl
  | cons p tl ih =>
    by_cases hp : p.1 = o
    · simp [updTask, hp] at *
      exact ih
    · simp only [updTask, List.map_cons, if_neg hp] at *
      simp [ih]

/-- A member of `updTask t o ph` is either an untouched entry with a
different key or the updated entry. -/
theorem mem_updTask (t : List (Nat × TPhase β)) (o : Nat) (ph : TPhase β) :
    ∀ p ∈ updTask t o ph, (p ∈ t ∧ p.1 ≠ o) ∨ p = (o, ph) := by
  intro p hp
  obtain ⟨a, ha, hfa⟩ := List.mem_map.mp hp
  by_cases hao : a.1 = o
  · right
    rw [← hfa, if_pos hao]
  · left
    rw [← hfa, if_neg hao]
    exact ⟨ha, hao⟩

/-- One step without `clear()` preserves the `ParalelQueue` invariant. -/
theorem pqInv_step (res : Nat → Except Unit β) (s t : ParalelQueue β)
    (inv : PQInv res s) (hstep : PStep res false s t) : PQInv res t := by
  obtain ⟨ho, hc, how, hwp, hitems, hkeys, htasks, hout⟩ := inv
  cases hstep with
  | push hopen hcap =>
    refine ⟨ho, ?_, how, ?_, ?_, hkeys, ?_, hout⟩
    · show (s.working && s.clearing) = false
      rw [hc, Bool.and_false]
    · show s.work_order ≤ s.push_order + 1
      omega
    · show s.items ++ [s.push_order] = List.range' s.outp_order (s.push_order + 1 - s.outp_order)
      have h1 : s.push_order + 1 - s.outp_order = (s.push_order - s.outp_order) + 1 := by omega
      have h2 : s.outp_order + (s.push_order - s.outp_order) = s.push_order := by omega
      rw [hitems, h1, List.range'_1_concat, h2]
    · intro p hp
      exact htasks p hp
  | dexit hpc hcond =>
    exact ⟨ho, hc, how, hwp, hitems, hkeys, htasks, hout⟩
  | dskip hpc hw hne hlt hmem =>
    have hin : s.work_order ∈ s.items := by
      rw [hitems]
      exact List.mem_range'_1.mpr ⟨how, by omega⟩
    exact absurd hin hmem
  | dlaunch hpc hw hne hlt hmem =>
    have hph : (if s.openQ then TPhase.compute else TPhase.turnWait (none : Option β)) =
        TPhase.compute := by
      rw [ho]
      rfl
    refine ⟨ho, hc, ?_, ?_, hitems, ?_, ?_, hout⟩
    · show s.outp_order ≤ s.work_order + 1
      omega
    · show s.work_order + 1 ≤ s.push_order
      omega
    · show (s.tasks ++ [(s.work_order, _)]).map Prod.fst = List.range (s.work_order + 1)
      rw [List.map_append, hkeys, List.range_succ]
      rfl
    · intro p hp
      rcases List.mem_append.mp hp with hp1 | hp2
      · exact htasks p hp1
      · simp only [List.mem_singleton] at hp2
        rw [hph] at hp2
        subst hp2
        refine ⟨?_, ?_⟩
        · intro r hr
          simp at hr
        · intro hlt2
          have hlt3 : s.work_order < s.outp_order := hlt2
          omega
  | dwaitdone hpc hcond =>
    exact ⟨ho, hc, how, hwp, hitems, hkeys, htasks, hout⟩
  | tcompute o b hmem hres =>
    have hoge : ¬ o < s.outp_order := by
      intro hlt
      have := (htasks (o, TPhase.compute) hmem).2 hlt
      simp at this
    refine ⟨ho, hc, how, hwp, hitems, ?_, ?_, hout⟩
    · show (updTask s.tasks o _).map Prod.fst = _
      rw [updTask_map_fst, hkeys]
    · intro p hp
      rcases mem_updTask s.tasks o _ p hp with ⟨hp1, _⟩ | hpe
      · exact htasks p hp1
      · subst hpe
        refine ⟨?_, ?_⟩
        · intro r hr
          cases hr
          exact ⟨b, hres, rfl⟩
        · intro hlt2
          exact absurd hlt2 hoge
  | tcomputeErr o hmem hres =>
    have hoge : ¬ o < s.outp_order := by
      intro hlt
      have := (htasks (o, TPhase.compute) hmem).2 hlt
      simp at this
    refine ⟨ho, hc, how, hwp, hitems, ?_, ?_, hout⟩
    · show (updTask s.tasks o _).map Prod.fst = _
      rw [updTask_map_fst, hkeys]
    · intro p hp
      rcases mem_updTask s.tasks o _ p hp with ⟨hp1, _⟩ | hpe
      · exact htasks p hp1
      · subst hpe
        refine ⟨?_, ?_⟩
        · intro r hr
          simp at hr
        · intro hlt2
          exact absurd hlt2 hoge
  | tturnClear o r hmem hcl =>
    rw [hc] at hcl
    cases hcl
  | tturnEmit o r hmem hcl hord =>
    obtain ⟨b, hresb, hrb⟩ := (htasks (o, TPhase.turnWait r) hmem).1 r rfl
    have holt : o < s.work_order := by
      have h1 : o ∈ s.tasks.map Prod.fst :=
        List.mem_map.mpr ⟨(o, TPhase.turnWait r), hmem, rfl⟩
      rw [hkeys] at h1
      exact List.mem_range.mp h1
    subst hord
    have hmemitems : s.outp_order ∈ s.items := by
      rw [hitems]
      exact List.mem_range'_1.mpr ⟨Nat.le_refl _, by omega⟩
    refine ⟨ho, hc, ?_, hwp, ?_, ?_, ?_, ?_⟩
    · show s.outp_order + 1 ≤ s.work_order
      omega
    · show s.items.erase s.outp_order =
        List.range' (s.outp_order + 1) (s.push_order - (s.outp_order + 1))
      have h1 : s.push_order - s.outp_order = (s.push_order - (s.outp_order + 1)) + 1 := by
        omega
      rw [hitems, h1]
      show (s.outp_order :: List.range' (s.outp_order + 1) _).erase s.outp_order = _
      rw [List.erase_cons_head]
    · show (updTask s.tasks s.outp_order _).map Prod.fst = _
      rw [updTask_map_fst, hkeys]
    · intro p hp
      rcases mem_updTask s.tasks s.outp_order _ p hp with ⟨hp1, hpne⟩ | hpe
      · refine ⟨(htasks p hp1).1, ?_⟩
        intro hlt2
        have hlt3 : p.1 < s.outp_order + 1 := hlt2
        exact (htasks p hp1).2 (by omega)
      · subst hpe
        refine ⟨?_, ?_⟩
        · intro r' hr'
          simp at hr'
        · intro _
          rfl
    · show (if s.openQ = true ∧ s.outp_order ∈ s.items then s.output ++ [r] else s.output) = _
      rw [if_pos ⟨ho, hmemitems⟩, hout, List.range_succ, List.map_append]
      simp [resOpt, hresb, hrb]
  | clearStep hcl =>
    cases hcl

/-- Every state reachable without `clear()` from an invariant state
satisfies the invariant. -/
theorem pqInv_reach (res : Nat → Except Unit β) (s t : ParalelQueue β)
    (inv : PQInv res s) (h : PReach res false s t) : PQInv res t := by
  induction h with
  | refl => exact inv
  | tail t' u' hr hstep ih => exact pqInv_step res t' u' ih hstep

/-- The freshly constructed queue satisfies the invariant. -/
theorem pqInv_mk (res : Nat → Except Unit β) (limit : Int) :
    PQInv res (mkParalelQueue β limit) := by
  refine ⟨rfl, rfl, Nat.le_refl _, Nat.le_refl _, rfl, rfl, ?_, rfl⟩
  intro p hp
  simp [mkParalelQueue] at hp

/-- C1: in every state reachable from a fresh `ParalelQueue` without
`clear()`, the output log is exactly the handler results of sequence numbers
`0, 1, ..., outp_order - 1` in that order: the output callback is invoked in
strictly increasing sequence order with no gaps and no duplicates,
regardless of the order in which handlers finish (the step relation lets
handlers complete in any interleaving). -/
theorem c1_ordered_emission (res : Nat → Except Unit β) (limit : Int)
    (t : ParalelQueue β) (h : PReach res false (mkParalelQueue β limit) t) :
    t.output = (List.range t.outp_order).map (fun i => resOpt (res i))
    ∧ t.output.length = t.outp_order
    ∧ (∀ i, i < t.outp_order → t.output[i]? = some (resOpt (res i))) := by
  obtain ⟨_, _, _, _, _, _, _, hout⟩ := pqInv_reach res _ t (pqInv_mk res limit) h
  refine ⟨hout, ?_, ?_⟩
  · rw [hout]
    simp
  · intro i hi
    rw [hout]
    rw [List.getElem?_map, List.getElem?_range hi]
    rfl

/-- The 4-step run pushing one item, launching it, finishing the handler and
emitting it is a legal interleaving. -/
theorem pqW4_reach : PReach resW false pqW0 pqW4 := by
  refine PReach.tail _ pqW3 pqW4
    (PReach.tail _ pqW2 pqW3
      (PReach.tail _ pqW1 pqW2
        (PReach.tail _ pqW0 pqW1 (PReach.refl _) ?_) ?_) ?_) ?_
  · exact PStep.push pqW0 (by decide) (by decide)
  · exact PStep.dlaunch pqW1 (by decide) (by decide) (by decide) (by decide) (by decide)
  · exact PStep.tcompute pqW2 0 0 (by decide) rfl
  · exact PStep.tturnEmit pqW3 0 (some 0) (by decide) (by decide) (by decide)

/-- Witness for C1: after the concrete 4-step run, the output log holds
exactly the result of item 0. -/
theorem c1_ordered_emission_witness :
    pqW4.output.length = pqW4.outp_order
    ∧ pqW4.output[0]? = some (some 0) := by
  have h := c1_ordered_emission resW 1 pqW4 pqW4_reach
  exact ⟨h.2.1, h.2.2 0 (by decide)⟩

/-- The C5 run is a legal interleaving: two pushes, two launches, handler 0
throws, handler 1 fulfils. -/
theorem pqE7_reach : PReach resE false pqE0 pqE7 := by
  refine PReach.tail _ pqE6 pqE7
    (PReach.tail _ pqE5 pqE6
      (PReach.tail _ pqE4 pqE5
        (PReach.tail _ pqE3 pqE4
          (PReach.tail _ pqE2 pqE3
            (PReach.tail _ pqE1 pqE2
              (PReach.tail _ pqE0 pqE1 (PReach.refl _) ?_) ?_) ?_) ?_) ?_) ?_) ?_
  · exact PStep.push pqE0 (by decide) (by decide)
  · exact PStep.push pqE1 (by decide) (by decide)
  · exact PStep.dlaunch pqE2 (by decide) (by decide) (by decide) (by decide) (by decide)
  · exact PStep.dwaitdone pqE3 (by decide) (Or.inr (by decide))
  · exact PStep.dlaunch pqE4 (by decide) (by decide) (by decide) (by decide) (by decide)
  · exact PStep.tcomputeErr pqE5 0 (by decide) rfl
  · exact PStep.tcompute pqE6 1 1 (by decide) rfl

/-- No step at all is enabled at `pqE7`: the queue is deadlocked at the
failed sequence number 0. -/
theorem pqE7_no_step (u : ParalelQueue Nat) : ¬ PStep resE false pqE7 u := by
  intro hstep
  cases hstep with
  | push hopen hcap => exact absurd hcap (by decide)
  | dexit hpc hcond => exact absurd hpc (by decide)
  | dskip hpc hw hne hlt hmem => exact absurd hpc (by decide)
  | dlaunch hpc hw hne hlt hmem => exact absurd hpc (by decide)
  | dwaitdone hpc hcond =>
    rcases hcond with hcond | hcond
    · exact absurd hcond (by decide)
    · exact absurd hcond (by decide)
  | tcompute o b hmem hres =>
    have ht : pqE7.tasks = [(0, TPhase.aborted), (1, TPhase.turnWait (some 1))] := by decide
    rw [ht] at hmem
    simp at hmem
  | tcomputeErr o hmem hres =>
    have ht : pqE7.tasks = [(0, TPhase.aborted), (1, TPhase.turnWait (some 1))] := by decide
    rw [ht] at hmem
    simp at hmem
  | tturnClear o r hmem hcl => exact absurd hcl (by decide)
  | tturnEmit o r hmem hcl hord =>
    have ht : pqE7.tasks = [(0, TPhase.aborted), (1, TPhase.turnWait (some 1))] := by decide
    rw [ht] at hmem
    simp at hmem
    have h0 : pqE7.outp_order = 1 := by rw [hord, hmem.1]
    exact absurd h0 (by decide)
  | clearStep hcl => exact absurd hcl (by decide)

/-- Every state reachable from `pqE7` is `pqE7` itself. -/
theorem pqE7_frozen_holds : c5Frozen := by
  intro t h
  induction h with
  | refl => rfl
  | tail t' u' hr hstep ih =>
    subst ih
    exact absurd hstep (pqE7_no_step u')

/-- C5 counterexample: with limit 2, handler 0 throwing and handler 1
fulfilling, a legal run reaches a state where handler 0's `callback`
aborted at the `await` (its error was never turned into a result), sibling 1
finished its handler (it was not aborted) and holds `some 1`, yet nothing
was ever emitted (`output = []`, `outp_order = 0`) — and no continuation is
possible: the error is never delivered in sequence order and the sibling
never emits, refuting the claim. -/
theorem c5_counterexample :
    PReach resE false (mkParalelQueue Nat 2) pqE7
    ∧ pqE7.output = []
    ∧ pqE7.outp_order = 0
    ∧ (0, TPhase.aborted) ∈ pqE7.tasks
    ∧ (1, TPhase.turnWait (some 1)) ∈ pqE7.tasks
    ∧ c5Frozen :=
  ⟨pqE7_reach, by decide, by decide, by decide, by decide, pqE7_frozen_holds⟩

/-- C5 amended: a handler that throws is NOT captured as a result value: the
internal `callback` has no try/catch, so the rejection escapes at the
`await` and the item's turn-wait, emission and bookkeeping never run.  The
failed item's error is never passed to the output sink; sibling in-flight
handlers do run to completion (they are not aborted), but any sibling with a
higher sequence number blocks forever on the ordering wait, and
`curr_working` is never given back: the queue deadlocks at the failed
sequence number. -/
theorem c5_amended_handler_error_jams :
    PReach resE false (mkParalelQueue Nat 2) pqE7
    ∧ pqE7.tasks = [(0, TPhase.aborted), (1, TPhase.turnWait (some 1))]
    ∧ pqE7.output = []
    ∧ pqE7.curr_working = 2
    ∧ c5Frozen :=
  ⟨pqE7_reach, by decide, by decide, by decide, pqE7_frozen_holds⟩

/-- The C7 run up to the suppressed task: push, launch, handler finishes,
`clear()`, the task exits its turn wait through the clearing path. -/
theorem pqC5_reach : PReach resW true (mkParalelQueue Nat 1) pqC5 := by
  refine PReach.tail _ pqC4 pqC5
    (PReach.tail _ pqW3 pqC4
      (PReach.tail _ pqW2 pqW3
        (PReach.tail _ pqW1 pqW2
          (PReach.tail _ pqW0 pqW1 (PReach.refl _) ?_) ?_) ?_) ?_) ?_
  · exact PStep.push pqW0 (by decide) (by decide)
  · exact PStep.dlaunch pqW1 (by decide) (by decide) (by decide) (by decide) (by decide)
  · exact PStep.tcompute pqW2 0 0 (by decide) rfl
  · exact PStep.clearStep pqW3 rfl
  · exact PStep.tturnClear pqC4 0 (some 0) (by decide) (by decide)

/-- The subsequent `push` after the clear is accepted, yielding the jammed
state. -/
theorem pqC6_reach : PReach resW true (mkParalelQueue Nat 1) pqC6 :=
  PReach.tail _ pqC5 pqC6 pqC5_reach (PStep.push pqC5 (by decide) (by decide))

/-- Every step from a jammed state stays jammed: the dispatcher is parked in
the concurrency wait (`curr_working = limit` and the suppressed task never
decrements it), so no launch, no emission and no dispatcher progress is ever
possible again. -/
theorem pqJam_step (t u : ParalelQueue Nat) (hj : PQJam t)
    (hstep : PStep resW true t u) : PQJam u := by
  obtain ⟨hout, htasks, hcurr, hlim, ho, hdpc, hw⟩ := hj
  cases hstep with
  | push hopen hcap =>
    refine ⟨hout, htasks, hcurr, hlim, ho, ?_, rfl⟩
    show (if t.working = true then t.dpc else DPhase.atLoop) = DPhase.atWait
    rw [hw, if_pos rfl]
    exact hdpc
  | dexit hpc hcond => simp [hdpc] at hpc
  | dskip hpc hw2 hne hlt hmem => simp [hdpc] at hpc
  | dlaunch hpc hw2 hne hlt hmem => simp [hdpc] at hpc
  | dwaitdone hpc hcond =>
    rcases hcond with h | h
    · rw [ho] at h
      simp at h
    · rw [hcurr, hlim] at h
      exact absurd h (by decide)
  | tcompute o b hmem hres =>
    rw [htasks] at hmem
    simp at hmem
  | tcomputeErr o hmem hres =>
    rw [htasks] at hmem
    simp at hmem
  | tturnClear o r hmem hcl =>
    rw [htasks] at hmem
    simp at hmem
  | tturnEmit o r hmem hcl hord =>
    rw [htasks] at hmem
    simp at hmem
  | clearStep hcl =>
    exact ⟨hout, htasks, hcurr, hlim, ho, hdpc, hw⟩

/-- Every state reachable from `pqC6` is jammed: the item pushed after the
clear is never dispatched and never emitted. -/
theorem c7NeverDispatched_holds : c7NeverDispatched := by
  intro t h
  induction h with
  | refl =>
    exact ⟨by decide, by decide, by decide, by decide, by decide, by decide, by decide⟩
  | tail t' u' hr hstep ih => exact pqJam_step t' u' ih hstep

/-- C7 counterexample: with limit 1, a legal run pushes item 0, clears while
its handler result waits for its turn, and then pushes item 1; item 1 is
accepted (`items = [1]`) but in every subsequent state the task list still
holds only the suppressed task 0 and the output stays empty — the subsequent
push is never dispatched and never emitted, refuting the claim that clear
"does not block any further operation". -/
theorem c7_counterexample :
    PReach resW true (mkParalelQueue Nat 1) pqC6
    ∧ pqC6.items = [1]
    ∧ pqC6.output = []
    ∧ c7NeverDispatched :=
  ⟨pqC6_reach, by decide, by decide, c7NeverDispatched_holds⟩

/-- C7 amended: after `clear()`, a task whose handler already finished exits
the ordering wait through the clearing path: its result is suppressed
(nothing is emitted), `outp_order` jumps to `push_order`, and the task
completes — but the clearing path returns before `curr_working--`, so the
in-flight count is never given back.  When the number of in-flight tasks at
the clear equalled the concurrency limit, the dispatcher is parked in its
concurrency wait forever: subsequent pushes are still accepted but their
items are never dispatched and never emitted. -/
theorem c7_amended_clear_suppresses_and_jams :
    PReach resW true (mkParalelQueue Nat 1) pqC5
    ∧ pqC5.tasks = [(0, TPhase.doneSuppressed)]
    ∧ pqC5.output = []
    ∧ pqC5.outp_order = pqC5.push_order
    ∧ pqC5.curr_working = 1
    ∧ PStep resW true pqC5 pqC6
    ∧ c7NeverDispatched :=
  ⟨pqC5_reach, by decide, by decide, by decide, by decide,
    PStep.push pqC5 (by decide) (by decide), c7NeverDispatched_holds⟩

end GlossaryCore